import Mathlib

/-!
Verification of the flashcards deck (`flashcards.py`).

The `Deck` class keeps three Python dictionaries:
`term_to_definition`, `definition_to_term` and `term_to_mistakes`.
Python dictionaries are modelled as association lists over `String`
keys: lookup returns the first matching entry, assignment updates an
existing entry in place or appends a fresh one, and deletion removes
the entry (Python dictionaries never hold a key twice, so the entry is
unique in every state the program can build).  Operations that raise
`KeyError` are modelled with an explicit error value; the spec names
the two flavours `DuplicateKey` and `NotFound` according to context.
`remove_card` deletes from the three dictionaries sequentially, so it
is modelled as returning the state reached when the exception escapes,
which captures partially-mutated states faithfully.
-/

namespace Flashcards

/-- Association-list model of a Python `dict` with `String` keys. -/
abbrev Dict (β : Type) := List (String × β)

/-- Lookup: value of the first entry with the given key (`d[k]`). -/
def dfind {β : Type} : Dict β → String → Option β
  | [], _ => none
  | (k', v) :: rest, k => if k' = k then some v else dfind rest k

/-- Membership test (`k in d`). -/
def dcontains {β : Type} (d : Dict β) (k : String) : Bool :=
  (dfind d k).isSome

/-- Assignment `d[k] = v`: update in place if present, else append. -/
def dset {β : Type} : Dict β → String → β → Dict β
  | [], k, v => [(k, v)]
  | (k', v') :: rest, k, v =>
      if k' = k then (k', v) :: rest else (k', v') :: dset rest k v

/-- Deletion `del d[k]` once the key is known present: drops the entry. -/
def derase {β : Type} : Dict β → String → Dict β
  | [], _ => []
  | (k', v') :: rest, k =>
      if k' = k then rest else (k', v') :: derase rest k

/-- Key list of a dictionary. -/
def dkeys {β : Type} (d : Dict β) : List String := d.map Prod.fst

/-- The `Flashcard` named tuple: `(term, definition)`. -/
structure Flashcard where
  term : String
  definition : String
  deriving DecidableEq

/-- Errors raised by `Deck` operations (Python raises `KeyError` in
both situations; the spec distinguishes them by context). -/
inductive DeckError where
  | duplicateKey
  | notFound
  deriving DecidableEq

/-- The `Deck` class: three dictionaries kept in sync. -/
structure Deck where
  term_to_definition : Dict String
  definition_to_term : Dict String
  term_to_mistakes : Dict Nat
  deriving DecidableEq

/-- A freshly constructed deck (`Deck()` without a snapshot). -/
def emptyDeck : Deck := ⟨[], [], []⟩

/-- Fallible deletion: `del d[k]` raises `KeyError` when `k` is absent. -/
def delD {β : Type} (d : Dict β) (k : String) : Except DeckError (Dict β) :=
  if dcontains d k then Except.ok (derase d k) else Except.error DeckError.notFound

/-- `Deck.insert_card`: refuse on a term or definition collision
(checked before any mutation), otherwise extend all three
dictionaries, the new term starting with 0 mistakes. -/
def insert_card (d : Deck) (c : Flashcard) : Except DeckError Deck :=
  if dcontains d.term_to_definition c.term || dcontains d.definition_to_term c.definition then
    Except.error DeckError.duplicateKey
  else
    Except.ok
      { term_to_definition := dset d.term_to_definition c.term c.definition
        definition_to_term := dset d.definition_to_term c.definition c.term
        term_to_mistakes := dset d.term_to_mistakes c.term 0 }

/-- `Deck.remove_card`: delete from `term_to_definition`, then
`term_to_mistakes`, then `definition_to_term`, in that order.  A
`KeyError` escapes with the mutations made so far kept, which the
result's first component records. -/
def remove_card (d : Deck) (c : Flashcard) : Deck × Option DeckError :=
  match delD d.term_to_definition c.term with
  | Except.error e => (d, some e)
  | Except.ok t2d =>
    match delD d.term_to_mistakes c.term with
    | Except.error e => ({ d with term_to_definition := t2d }, some e)
    | Except.ok mist =>
      match delD d.definition_to_term c.definition with
      | Except.error e =>
          ({ d with term_to_definition := t2d, term_to_mistakes := mist }, some e)
      | Except.ok d2t => (⟨t2d, d2t, mist⟩, none)

/-- The dictionary comprehension rebuilding `term_to_definition` from
imported data (`{term: definition for term, (definition, _) in ...}`). -/
def imp_t2d (data : Dict (String × Nat)) : Dict String :=
  data.foldl (fun acc p => dset acc p.1 p.2.1) []

/-- The comprehension rebuilding `term_to_mistakes` from imported data. -/
def imp_mist (data : Dict (String × Nat)) : Dict Nat :=
  data.foldl (fun acc p => dset acc p.1 p.2.2) []

/-- The comprehension rebuilding `definition_to_term` from the freshly
imported `term_to_definition` (later entries win on a duplicate
definition, keeping the first entry's position). -/
def imp_d2t (data : Dict (String × Nat)) : Dict String :=
  (imp_t2d data).foldl (fun acc p => dset acc p.2 p.1) []

/-- The deck state right after `import_deck` replaces all three
dictionaries wholesale with the imported data. -/
def import_base (data : Dict (String × Nat)) : Deck :=
  ⟨imp_t2d data, imp_d2t data, imp_mist data⟩

/-- One iteration of `import_deck`'s re-insertion loop: try
`insert_card` on an old card; on success restore its old mistake count
(`self.term_to_mistakes[term] = old_term_to_stats[term]`, whose
`KeyError` on a missing old stat is caught by the same handler, leaving
the freshly inserted card at 0); on `KeyError` keep going silently. -/
def import_step (old_stats : Dict Nat) (acc : Deck) (p : String × String) : Deck :=
  match insert_card acc ⟨p.1, p.2⟩ with
  | Except.error _ => acc
  | Except.ok acc' =>
    match dfind old_stats p.1 with
    | none => acc'
    | some s => { acc' with term_to_mistakes := dset acc'.term_to_mistakes p.1 s }

/-- `Deck.import_deck`: capture the old `term_to_definition` and
`term_to_mistakes`, replace the state wholesale with the imported
data, re-insert the old cards in order, and return the number of
imported entries. -/
def import_deck (d : Deck) (data : Dict (String × Nat)) : Deck × Nat :=
  (d.term_to_definition.foldl (import_step d.term_to_mistakes) (import_base data),
   data.length)

/-- `Deck.export_deck`: walk `term_to_definition` building
`{term: (definition, stats)}`; reading a missing stat raises
`KeyError` (modelled as `none`), and the card count is the deck size. -/
def export_deck (d : Deck) : Option (Dict (String × Nat) × Nat) :=
  (d.term_to_definition.foldl
      (fun acc p =>
        acc.bind (fun j =>
          (dfind d.term_to_mistakes p.1).map (fun s => dset j p.1 (p.2, s))))
      (some [])).map
    (fun j => (j, d.term_to_definition.length))

/-- `Deck.ask`: a correct answer returns `(True, answer)` untouched;
otherwise the term's mistake count is incremented (raising `KeyError`
when the term has no counter) and the answer is looked up as a
definition for the hint. -/
def ask (d : Deck) (c : Flashcard) (answer : String) :
    Except DeckError (Deck × Bool × Option String) :=
  if answer = c.definition then
    Except.ok (d, true, some answer)
  else
    match dfind d.term_to_mistakes c.term with
    | none => Except.error DeckError.notFound
    | some m =>
        Except.ok
          ({ d with term_to_mistakes := dset d.term_to_mistakes c.term (m + 1) },
           false, dfind d.definition_to_term answer)

/-- Maximum of the recorded mistake counts, 0 when there are none
(`max(self.term_to_mistakes.values(), default=0)`). -/
def maxMistakes (d : Deck) : Nat :=
  d.term_to_mistakes.foldl (fun acc p => Nat.max acc p.2) 0

/-- `Deck.get_hardest_cards`: `([], 0)` when the maximum mistake count
is 0, otherwise all terms attaining the maximum, with the maximum. -/
def get_hardest_cards (d : Deck) : List String × Nat :=
  let maxM := maxMistakes d
  if maxM = 0 then ([], 0)
  else ((d.term_to_mistakes.filter (fun p => p.2 == maxM)).map Prod.fst, maxM)

/-- `Deck.reset_stats`: `dict.fromkeys(self.term_to_definition.keys(), 0)`. -/
def reset_stats (d : Deck) : Deck :=
  { d with term_to_mistakes := d.term_to_definition.foldl (fun acc p => dset acc p.1 0) [] }

/-- The deck invariants of the spec: unique keys in each dictionary
(automatic for Python dictionaries), the two term/definition indices
exact mutual inverses, and `term_to_definition` and `term_to_mistakes`
sharing their key set. -/
def Wf (d : Deck) : Prop :=
  (dkeys d.term_to_definition).Nodup ∧
  (dkeys d.definition_to_term).Nodup ∧
  (dkeys d.term_to_mistakes).Nodup ∧
  (∀ p ∈ d.term_to_definition, dfind d.definition_to_term p.2 = some p.1) ∧
  (∀ p ∈ d.definition_to_term, dfind d.term_to_definition p.2 = some p.1) ∧
  (∀ p ∈ d.term_to_definition, (dfind d.term_to_mistakes p.1).isSome = true) ∧
  (∀ p ∈ d.term_to_mistakes, (dfind d.term_to_definition p.1).isSome = true)

instance (d : Deck) : Decidable (Wf d) := by
  unfold Wf
  infer_instance

/-- The two indices are exact inverses, read through lookup. -/
def Inverse (a b : Dict String) : Prop :=
  ∀ t df, dfind a t = some df ↔ dfind b df = some t

/-- Example deck `{A: 1, B: 2}` with zeroed statistics. -/
def exDeck : Deck :=
  ⟨[("A", "1"), ("B", "2")], [("1", "A"), ("2", "B")], [("A", 0), ("B", 0)]⟩

/-- Example deck `{A: 1}` with zeroed statistics. -/
def exDeck1 : Deck := ⟨[("A", "1")], [("1", "A")], [("A", 0)]⟩

/-- The import scenario data of the spec: `{A: (9, 3), C: (3, 0)}`. -/
def exData : Dict (String × Nat) := [("A", ("9", 3)), ("C", ("3", 0))]

/-- The quiz scenario deck of the spec: `{France: Paris}`. -/
def frDeck : Deck :=
  ⟨[("France", "Paris")], [("Paris", "France")], [("France", 0)]⟩

/-- Example deck `{A: 1, B: 2}` with mistake counts 2 and 1. -/
def hardDeck : Deck :=
  ⟨[("A", "1"), ("B", "2")], [("1", "A"), ("2", "B")], [("A", 2), ("B", 1)]⟩

/-! ### Lookup, assignment and deletion lemmas for the dictionary model -/

theorem dfind_dset_self {β : Type} (d : Dict β) (k : String) (v : β) :
    dfind (dset d k v) k = some v := by
  induction d with
  | nil => simp [dset, dfind]
  | cons p rest ih =>
    obtain ⟨a, b⟩ := p
    by_cases h : a = k
    · simp [dset, dfind, h]
    · simp [dset, dfind, h, ih]

theorem dfind_dset_ne {β : Type} (d : Dict β) (k k' : String) (v : β)
    (h : k' ≠ k) : dfind (dset d k v) k' = dfind d k' := by
  induction d with
  | nil => simp [dset, dfind, Ne.symm h]
  | cons p rest ih =>
    obtain ⟨a, b⟩ := p
    by_cases hp : a = k
    · subst hp
      simp [dset, dfind, Ne.symm h]
    · simp [dset, dfind, hp, ih]

theorem dcontains_eq_false_iff {β : Type} (d : Dict β) (k : String) :
    dcontains d k = false ↔ dfind d k = none := by
  unfold dcontains
  cases dfind d k <;> simp

theorem dcontains_eq_true_iff {β : Type} (d : Dict β) (k : String) :
    dcontains d k = true ↔ ∃ v, dfind d k = some v := by
  unfold dcontains
  cases dfind d k <;> simp

theorem dcontains_dset {β : Type} (d : Dict β) (k k' : String) (v : β) :
    dcontains (dset d k v) k' = (k == k' || dcontains d k') := by
  by_cases h : k = k'
  · subst h
    simp [dcontains, dfind_dset_self]
  · have h' : k' ≠ k := fun hh => h hh.symm
    simp [dcontains, dfind_dset_ne d k k' v h', h]

theorem dset_of_absent {β : Type} (d : Dict β) (k : String) (v : β)
    (h : dcontains d k = false) : dset d k v = d ++ [(k, v)] := by
  induction d with
  | nil => simp [dset]
  | cons p rest ih =>
    obtain ⟨a, b⟩ := p
    rw [dcontains_eq_false_iff] at h
    by_cases hp : a = k
    · simp [dfind, hp] at h
    · rw [dcontains_eq_false_iff] at ih
      simp [dfind, hp] at h
      simp [dset, hp, ih h]

theorem dfind_mem {β : Type} {d : Dict β} {k : String} {v : β}
    (h : dfind d k = some v) : (k, v) ∈ d := by
  induction d with
  | nil => simp [dfind] at h
  | cons p rest ih =>
    obtain ⟨a, b⟩ := p
    by_cases hp : a = k
    · simp [dfind, hp] at h
      subst hp
      subst h
      exact List.mem_cons_self _ _
    · simp [dfind, hp] at h
      exact List.mem_cons_of_mem _ (ih h)

theorem mem_dfind {β : Type} {d : Dict β} {k : String} {v : β}
    (hnd : (dkeys d).Nodup) (h : (k, v) ∈ d) : dfind d k = some v := by
  induction d with
  | nil => simp at h
  | cons p rest ih =>
    rw [dkeys, List.map_cons, List.nodup_cons] at hnd
    rcases List.mem_cons.mp h with h1 | h1
    · rw [← h1]
      simp [dfind]
    · have hne : p.1 ≠ k := by
        intro hk
        exact hnd.1 (hk ▸ (List.mem_map.mpr ⟨(k, v), h1, rfl⟩))
      simp [dfind, hne]
      exact ih hnd.2 h1

theorem dcontains_iff_mem_keys {β : Type} (d : Dict β) (k : String) :
    dcontains d k = true ↔ k ∈ dkeys d := by
  constructor
  · intro h
    rcases (dcontains_eq_true_iff d k).mp h with ⟨v, hv⟩
    exact List.mem_map.mpr ⟨(k, v), dfind_mem hv, rfl⟩
  · intro h
    rcases List.mem_map.mp h with ⟨p, hp, hpk⟩
    induction d with
    | nil => simp at hp
    | cons q rest ih =>
      rcases List.mem_cons.mp hp with h1 | h1
      · subst h1
        simp [dcontains, dfind, hpk]
      · by_cases hq : q.1 = k
        · simp [dcontains, dfind, hq]
        · have := ih (List.mem_map.mpr ⟨p, h1, hpk⟩) h1
          simp [dcontains, dfind, hq] at this ⊢
          exact this

theorem dfind_derase_ne {β : Type} (d : Dict β) (k k' : String)
    (h : k' ≠ k) : dfind (derase d k) k' = dfind d k' := by
  induction d with
  | nil => simp [derase]
  | cons p rest ih =>
    obtain ⟨a, b⟩ := p
    by_cases hp : a = k
    · subst hp
      simp [derase, dfind, Ne.symm h]
    · simp [derase, dfind, hp, ih]

theorem dfind_derase_self {β : Type} (d : Dict β) (k : String)
    (hnd : (dkeys d).Nodup) : dfind (derase d k) k = none := by
  induction d with
  | nil => simp [derase, dfind]
  | cons p rest ih =>
    obtain ⟨a, b⟩ := p
    rw [dkeys, List.map_cons, List.nodup_cons] at hnd
    by_cases hp : a = k
    · subst hp
      rw [derase]
      simp only [if_pos rfl]
      rw [← dcontains_eq_false_iff]
      by_contra hc
      simp only [Bool.not_eq_false] at hc
      exact hnd.1 ((dcontains_iff_mem_keys rest a).mp hc)
    · simp [derase, dfind, hp, ih hnd.2]

/-! ### Folded assignments: the dictionary-comprehension shape -/

theorem dfind_append {β : Type} (a b : Dict β) (k : String) :
    dfind (a ++ b) k = ((dfind a k).or (dfind b k)) := by
  induction a with
  | nil => simp [dfind]
  | cons p rest ih =>
    obtain ⟨x, y⟩ := p
    by_cases hp : x = k <;> simp [dfind, hp, ih]

theorem dcontains_append {β : Type} (a b : Dict β) (k : String) :
    dcontains (a ++ b) k = (dcontains a k || dcontains b k) := by
  unfold dcontains
  rw [dfind_append]
  cases dfind a k <;> simp

theorem dcontains_singleton {β : Type} (k k' : String) (v : β) :
    dcontains [(k, v)] k' = (k == k') := by
  by_cases h : k = k' <;> simp [dcontains, dfind, h]

theorem foldl_dset_fresh {α β : Type} (l : List α) (f : α → String) (g : α → β)
    (acc : Dict β) (hfresh : ∀ x ∈ l, dcontains acc (f x) = false)
    (hnd : (l.map f).Nodup) :
    l.foldl (fun a x => dset a (f x) (g x)) acc = acc ++ l.map (fun x => (f x, g x)) := by
  induction l generalizing acc with
  | nil => simp
  | cons x rest ih =>
    rw [List.map_cons, List.nodup_cons] at hnd
    rw [List.foldl_cons, dset_of_absent acc (f x) (g x) (hfresh x (List.mem_cons_self x rest)),
        ih (acc ++ [(f x, g x)]) ?_ hnd.2]
    · simp
    · intro y hy
      rw [dcontains_append, hfresh y (List.mem_cons_of_mem x hy), dcontains_singleton]
      simp only [Bool.false_or, beq_eq_false_iff_ne, ne_eq]
      intro hxy
      exact hnd.1 (hxy ▸ List.mem_map.mpr ⟨y, hy, rfl⟩)

theorem dcontains_foldl_dset {α β : Type} (l : List α) (f : α → String) (g : α → β)
    (acc : Dict β) (k : String) :
    dcontains (l.foldl (fun a x => dset a (f x) (g x)) acc) k
      = (dcontains acc k || l.any (fun x => f x == k)) := by
  induction l generalizing acc with
  | nil => simp
  | cons x rest ih =>
    rw [List.foldl_cons, ih, dcontains_dset]
    simp [Bool.or_assoc, Bool.or_comm, Bool.or_left_comm]

theorem dfind_map_val {α β : Type} (data : Dict α) (h : α → β) (k : String) :
    dfind (data.map (fun p => (p.1, h p.2))) k = (dfind data k).map h := by
  induction data with
  | nil => simp [dfind]
  | cons p rest ih =>
    obtain ⟨a, b⟩ := p
    by_cases hp : a = k <;> simp [dfind, hp, ih]

theorem dfind_map_keyfn {α β : Type} (l : Dict α) (h : String → β) (k : String) :
    dfind (l.map (fun p => (p.1, h p.1))) k
      = if dcontains l k then some (h k) else none := by
  induction l with
  | nil => simp [dfind, dcontains]
  | cons p rest ih =>
    obtain ⟨a, b⟩ := p
    by_cases hp : a = k
    · subst hp
      simp [dfind, dcontains]
    · simp only [List.map_cons, dfind, hp, if_false, ih]
      have : dcontains ((a, b) :: rest) k = dcontains rest k := by
        simp [dcontains, dfind, hp]
      rw [this]

/-! ### Inverse-index lemmas -/

theorem vals_nodup {a b : Dict String} (hk : (dkeys a).Nodup)
    (hinv : ∀ p ∈ a, dfind b p.2 = some p.1) : (a.map Prod.snd).Nodup := by
  induction a with
  | nil => simp
  | cons p rest ih =>
    obtain ⟨t, df⟩ := p
    rw [dkeys, List.map_cons, List.nodup_cons] at hk
    rw [List.map_cons, List.nodup_cons]
    refine ⟨?_, ih hk.2 (fun q hq => hinv q (List.mem_cons_of_mem _ hq))⟩
    intro hmem
    rcases List.mem_map.mp hmem with ⟨q, hq, hq2⟩
    have h1 : dfind b df = some t := hinv (t, df) (List.mem_cons_self _ _)
    have h2 : dfind b q.2 = some q.1 := hinv q (List.mem_cons_of_mem _ hq)
    rw [hq2, h1] at h2
    have hqt : t = q.1 := by injection h2
    exact hk.1 (hqt ▸ List.mem_map.mpr ⟨q, hq, rfl⟩)

theorem dkeys_map_swap (l : Dict String) :
    dkeys (l.map (fun p => (p.2, p.1))) = l.map Prod.snd := by
  simp [dkeys, List.map_map]

theorem inverse_map_swap (l : Dict String) (hk : (dkeys l).Nodup)
    (hv : (l.map Prod.snd).Nodup) :
    Inverse l (l.map (fun p => (p.2, p.1))) := by
  intro t df
  constructor
  · intro h
    have hmem : (df, t) ∈ l.map (fun p => (p.2, p.1)) :=
      List.mem_map.mpr ⟨(t, df), dfind_mem h, rfl⟩
    exact mem_dfind (by rw [dkeys_map_swap]; exact hv) hmem
  · intro h
    rcases List.mem_map.mp (dfind_mem h) with ⟨⟨t', df'⟩, hq, hq2⟩
    have hdf : df' = df := congrArg Prod.fst hq2
    have ht : t' = t := congrArg Prod.snd hq2
    subst hdf
    subst ht
    exact mem_dfind hk hq

/-- A collision-free `insert_card` succeeds with the three updated
dictionaries. -/
theorem insert_card_eq_ok {d : Deck} {c : Flashcard}
    (h : (dcontains d.term_to_definition c.term
          || dcontains d.definition_to_term c.definition) = false) :
    insert_card d c = Except.ok
      { term_to_definition := dset d.term_to_definition c.term c.definition
        definition_to_term := dset d.definition_to_term c.definition c.term
        term_to_mistakes := dset d.term_to_mistakes c.term 0 } := by
  unfold insert_card
  rw [h]
  simp

/-- A successful `insert_card` had no collision and built the three
updated dictionaries. -/
theorem insert_card_ok_elim {d d' : Deck} {c : Flashcard}
    (h : insert_card d c = Except.ok d') :
    (dcontains d.term_to_definition c.term
       || dcontains d.definition_to_term c.definition) = false ∧
    d' = { term_to_definition := dset d.term_to_definition c.term c.definition
           definition_to_term := dset d.definition_to_term c.definition c.term
           term_to_mistakes := dset d.term_to_mistakes c.term 0 } := by
  unfold insert_card at h
  by_cases hc : (dcontains d.term_to_definition c.term
      || dcontains d.definition_to_term c.definition) = true
  · rw [hc] at h
    simp at h
  · rw [Bool.not_eq_true] at hc
    rw [hc] at h
    simp at h
    exact ⟨hc, h.symm⟩

theorem insert_card_inverse {d d' : Deck} {c : Flashcard}
    (hinv : Inverse d.term_to_definition d.definition_to_term)
    (h : insert_card d c = Except.ok d') :
    Inverse d'.term_to_definition d'.definition_to_term := by
  obtain ⟨hc, hd'⟩ := insert_card_ok_elim h
  rw [Bool.or_eq_false_iff] at hc
  have hterm := (dcontains_eq_false_iff _ _).mp hc.1
  have hdef := (dcontains_eq_false_iff _ _).mp hc.2
  subst hd'
  intro t df
  simp only
  by_cases ht : t = c.term
  · subst ht
    rw [dfind_dset_self]
    by_cases hdf : df = c.definition
    · subst hdf
      rw [dfind_dset_self]
      simp
    · rw [dfind_dset_ne _ _ _ _ hdf]
      constructor
      · intro hh
        injection hh with hh
        exact absurd hh.symm hdf
      · intro hh
        have hx := (hinv c.term df).mpr hh
        rw [hterm] at hx
        simp at hx
  · rw [dfind_dset_ne _ _ _ _ ht]
    by_cases hdf : df = c.definition
    · subst hdf
      rw [dfind_dset_self]
      constructor
      · intro hh
        have hx := (hinv t c.definition).mp hh
        rw [hdef] at hx
        simp at hx
      · intro hh
        injection hh with hh
        exact absurd hh.symm ht
    · rw [dfind_dset_ne _ _ _ _ hdf]
      exact hinv t df

/-! ### The re-insertion loop of `import_deck` -/

theorem dset_dset_self {β : Type} (d : Dict β) (k : String) (v w : β) :
    dset (dset d k v) k w = dset d k w := by
  induction d with
  | nil => simp [dset]
  | cons p rest ih =>
    obtain ⟨a, b⟩ := p
    by_cases h : a = k <;> simp [dset, h, ih]

/-- Each loop iteration either skips the old card on a collision or
inserts it and sets its mistake count to its old one (0 when the old
statistics lack the term, whose read raises the caught `KeyError`). -/
theorem import_step_cases (st : Dict Nat) (acc : Deck) (p : String × String) :
    ((dcontains acc.term_to_definition p.1 || dcontains acc.definition_to_term p.2) = true ∧
       import_step st acc p = acc) ∨
    ((dcontains acc.term_to_definition p.1 || dcontains acc.definition_to_term p.2) = false ∧
       import_step st acc p =
         { term_to_definition := dset acc.term_to_definition p.1 p.2
           definition_to_term := dset acc.definition_to_term p.2 p.1
           term_to_mistakes :=
             dset (dset acc.term_to_mistakes p.1 0) p.1 ((dfind st p.1).getD 0) }) := by
  by_cases hc : (dcontains acc.term_to_definition p.1
      || dcontains acc.definition_to_term p.2) = true
  · left
    refine ⟨hc, ?_⟩
    unfold import_step insert_card
    rw [hc]
    simp
  · right
    rw [Bool.not_eq_true] at hc
    refine ⟨hc, ?_⟩
    unfold import_step
    rw [insert_card_eq_ok hc]
    simp only
    cases hst : dfind st p.1 with
    | none => simp [dset_dset_self]
    | some s => simp

theorem import_step_find_ne (st : Dict Nat) (acc : Deck) (p : String × String)
    (t : String) (ht : p.1 ≠ t) :
    dfind (import_step st acc p).term_to_definition t = dfind acc.term_to_definition t ∧
    dfind (import_step st acc p).term_to_mistakes t = dfind acc.term_to_mistakes t := by
  rcases import_step_cases st acc p with ⟨_, heq⟩ | ⟨_, heq⟩
  · rw [heq]
    exact ⟨rfl, rfl⟩
  · rw [heq]
    have ht' : t ≠ p.1 := Ne.symm ht
    constructor
    · exact dfind_dset_ne _ _ _ _ ht'
    · rw [dfind_dset_ne _ _ _ _ ht', dfind_dset_ne _ _ _ _ ht']

theorem import_step_contains_ne (st : Dict Nat) (acc : Deck) (p : String × String)
    (t df : String) (ht : p.1 ≠ t) (hdf : p.2 ≠ df) :
    dcontains (import_step st acc p).term_to_definition t = dcontains acc.term_to_definition t ∧
    dcontains (import_step st acc p).definition_to_term df = dcontains acc.definition_to_term df := by
  rcases import_step_cases st acc p with ⟨_, heq⟩ | ⟨_, heq⟩
  · rw [heq]
    exact ⟨rfl, rfl⟩
  · rw [heq]
    constructor
    · rw [dcontains_dset]
      simp [ht]
    · rw [dcontains_dset]
      simp [hdf]

theorem foldl_step_absent (st : Dict Nat) (l : List (String × String)) (acc : Deck)
    (t : String) (ht : t ∉ l.map Prod.fst) :
    dfind ((l.foldl (import_step st) acc)).term_to_definition t
        = dfind acc.term_to_definition t ∧
    dfind ((l.foldl (import_step st) acc)).term_to_mistakes t
        = dfind acc.term_to_mistakes t := by
  induction l generalizing acc with
  | nil => exact ⟨rfl, rfl⟩
  | cons p rest ih =>
    rw [List.map_cons, List.mem_cons] at ht
    push_neg at ht
    have hstep := import_step_find_ne st acc p t (Ne.symm ht.1)
    have hrest := ih (import_step st acc p) ht.2
    rw [List.foldl_cons]
    exact ⟨hrest.1.trans hstep.1, hrest.2.trans hstep.2⟩

theorem foldl_step_contains (st : Dict Nat) (l : List (String × String)) (acc : Deck)
    (t : String) (hc : dcontains acc.term_to_definition t = true) :
    dfind ((l.foldl (import_step st) acc)).term_to_definition t
        = dfind acc.term_to_definition t ∧
    dfind ((l.foldl (import_step st) acc)).term_to_mistakes t
        = dfind acc.term_to_mistakes t := by
  induction l generalizing acc with
  | nil => exact ⟨rfl, rfl⟩
  | cons p rest ih =>
    rw [List.foldl_cons]
    rcases import_step_cases st acc p with ⟨_, heq⟩ | ⟨hcol, heq⟩
    · rw [heq]
      exact ih acc hc
    · have hp1 : p.1 ≠ t := by
        intro hh
        rw [Bool.or_eq_false_iff] at hcol
        rw [hh] at hcol
        rw [hcol.1] at hc
        cases hc
      have hstep := import_step_find_ne st acc p t hp1
      have hcont : dcontains (import_step st acc p).term_to_definition t = true := by
        rw [heq]
        simp only
        rw [dcontains_dset]
        rw [hc]
        simp
      have hrest := ih (import_step st acc p) hcont
      exact ⟨hrest.1.trans hstep.1, hrest.2.trans hstep.2⟩

/-- The fate of one old card `(t, df)` through the whole re-insertion
loop: skipped exactly when its term or definition collides with the
state the loop started from, else inserted with its old statistics
restored. -/
theorem foldl_step_mem (st : Dict Nat) (l : List (String × String)) (acc : Deck)
    (t df : String) (hmem : (t, df) ∈ l)
    (hk : (l.map Prod.fst).Nodup) (hv : (l.map Prod.snd).Nodup) :
    ((dcontains acc.term_to_definition t || dcontains acc.definition_to_term df) = true →
       dfind ((l.foldl (import_step st) acc)).term_to_definition t
           = dfind acc.term_to_definition t ∧
       dfind ((l.foldl (import_step st) acc)).term_to_mistakes t
           = dfind acc.term_to_mistakes t) ∧
    ((dcontains acc.term_to_definition t || dcontains acc.definition_to_term df) = false →
       dfind ((l.foldl (import_step st) acc)).term_to_definition t = some df ∧
       dfind ((l.foldl (import_step st) acc)).term_to_mistakes t
           = some ((dfind st t).getD 0)) := by
  induction l generalizing acc with
  | nil => simp at hmem
  | cons p rest ih =>
    rw [List.map_cons, List.nodup_cons] at hk hv
    rcases List.mem_cons.mp hmem with hhead | htail
    · subst hhead
      have htrest : t ∉ rest.map Prod.fst := hk.1
      constructor
      · intro hcol
        rcases import_step_cases st acc (t, df) with ⟨_, heq⟩ | ⟨hcol', heq⟩
        · rw [List.foldl_cons, heq]
          exact foldl_step_absent st rest acc t htrest
        · rw [hcol] at hcol'
          cases hcol'
      · intro hcol
        rcases import_step_cases st acc (t, df) with ⟨hcol', heq⟩ | ⟨_, heq⟩
        · rw [hcol] at hcol'
          cases hcol'
        · rw [List.foldl_cons, heq]
          have habs := foldl_step_absent st rest
            { term_to_definition := dset acc.term_to_definition t df
              definition_to_term := dset acc.definition_to_term df t
              term_to_mistakes :=
                dset (dset acc.term_to_mistakes t 0) t ((dfind st t).getD 0) } t htrest
          rw [habs.1, habs.2]
          simp only


          exact ⟨dfind_dset_self _ _ _, dfind_dset_self _ _ _⟩
    · have hp1 : p.1 ≠ t := by
        intro hh
        exact hk.1 (hh ▸ List.mem_map.mpr ⟨(t, df), htail, rfl⟩)
      have hp2 : p.2 ≠ df := by
        intro hh
        exact hv.1 (hh ▸ List.mem_map.mpr ⟨(t, df), htail, rfl⟩)
      have hcontst := import_step_contains_ne st acc p t df hp1 hp2
      have hfind := import_step_find_ne st acc p t hp1
      have ihx := ih (import_step st acc p) htail hk.2 hv.2
      rw [List.foldl_cons]
      constructor
      · intro hcol
        have hcol' : (dcontains (import_step st acc p).term_to_definition t
            || dcontains (import_step st acc p).definition_to_term df) = true := by
          rw [hcontst.1, hcontst.2]
          exact hcol
        have hres := ihx.1 hcol'
        exact ⟨hres.1.trans hfind.1, hres.2.trans hfind.2⟩
      · intro hcol
        have hcol' : (dcontains (import_step st acc p).term_to_definition t
            || dcontains (import_step st acc p).definition_to_term df) = false := by
          rw [hcontst.1, hcontst.2]
          exact hcol
        exact ihx.2 hcol'

/-! ### The wholesale-replacement state of `import_deck` -/

theorem imp_t2d_eq_map (data : Dict (String × Nat))
    (hnd : (data.map Prod.fst).Nodup) :
    imp_t2d data = data.map (fun p => (p.1, p.2.1)) := by
  have h := foldl_dset_fresh data Prod.fst (fun p => p.2.1) []
    (fun x _ => by simp [dcontains, dfind]) hnd
  simpa [imp_t2d] using h

theorem imp_mist_eq_map (data : Dict (String × Nat))
    (hnd : (data.map Prod.fst).Nodup) :
    imp_mist data = data.map (fun p => (p.1, p.2.2)) := by
  have h := foldl_dset_fresh data Prod.fst (fun p => p.2.2) []
    (fun x _ => by simp [dcontains, dfind]) hnd
  simpa [imp_mist] using h

theorem imp_t2d_find (data : Dict (String × Nat))
    (hnd : (data.map Prod.fst).Nodup) (t : String) :
    dfind (imp_t2d data) t = (dfind data t).map Prod.fst := by
  rw [imp_t2d_eq_map data hnd]
  have h := dfind_map_val data Prod.fst t
  simpa using h

theorem imp_mist_find (data : Dict (String × Nat))
    (hnd : (data.map Prod.fst).Nodup) (t : String) :
    dfind (imp_mist data) t = (dfind data t).map Prod.snd := by
  rw [imp_mist_eq_map data hnd]
  have h := dfind_map_val data Prod.snd t
  simpa using h

theorem any_map_entry {α β : Type} (l : List α) (g : α → β) (q : β → Bool) :
    (l.map g).any q = l.any (fun x => q (g x)) := by
  induction l <;> simp [*]

theorem imp_d2t_contains (data : Dict (String × Nat))
    (hnd : (data.map Prod.fst).Nodup) (k : String) :
    dcontains (imp_d2t data) k = data.any (fun p => p.2.1 == k) := by
  unfold imp_d2t
  rw [imp_t2d_eq_map data hnd]
  have h := dcontains_foldl_dset (data.map (fun p => (p.1, p.2.1))) Prod.snd Prod.fst [] k
  simpa [any_map_entry, dcontains, dfind] using h

/-! ### Further helpers for the individual operations -/

theorem dcontains_eq_any {β : Type} (d : Dict β) (k : String) :
    dcontains d k = d.any (fun p => p.1 == k) := by
  induction d with
  | nil => simp [dcontains, dfind]
  | cons p rest ih =>
    obtain ⟨a, b⟩ := p
    by_cases h : a = k
    · simp [dcontains, dfind, h]
    · rw [List.any_cons]
      have hbeq : (a == k) = false := by simp [h]
      rw [hbeq, Bool.false_or, ← ih]
      simp [dcontains, dfind, h]

theorem dfind_foldl_dset_const {α β : Type} (l : List α) (f : α → String) (v : β)
    (acc : Dict β) (k : String) :
    dfind (l.foldl (fun a x => dset a (f x) v) acc) k
      = if l.any (fun x => f x == k) then some v else dfind acc k := by
  induction l generalizing acc with
  | nil => simp
  | cons x rest ih =>
    rw [List.foldl_cons, ih]
    by_cases hr : rest.any (fun x => f x == k) = true
    · simp [hr]
    · rw [Bool.not_eq_true] at hr
      by_cases hx : f x = k
      · subst hx
        simp [hr, dfind_dset_self]
      · simp [hr, hx, dfind_dset_ne _ _ _ _ (Ne.symm hx)]

theorem mem_dset {β : Type} {q : String × β} {d : Dict β} {k : String} {v : β}
    (h : q ∈ dset d k v) : q ∈ d ∨ q = (k, v) := by
  induction d with
  | nil => simpa [dset] using h
  | cons p rest ih =>
    obtain ⟨a, b⟩ := p
    by_cases ha : a = k
    · rw [dset, if_pos ha] at h
      rcases List.mem_cons.mp h with h1 | h1
      · right
        rw [h1, ha]
      · exact Or.inl (List.mem_cons_of_mem _ h1)
    · rw [dset, if_neg ha] at h
      rcases List.mem_cons.mp h with h1 | h1
      · exact Or.inl (h1 ▸ List.mem_cons_self _ _)
      · rcases ih h1 with h2 | h2
        · exact Or.inl (List.mem_cons_of_mem _ h2)
        · exact Or.inr h2

theorem foldl_dset_const_vals {α β : Type} (l : List α) (f : α → String) (v : β)
    (acc : Dict β) (hacc : ∀ q ∈ acc, q.2 = v) :
    ∀ q ∈ l.foldl (fun a x => dset a (f x) v) acc, q.2 = v := by
  induction l generalizing acc with
  | nil => exact hacc
  | cons x rest ih =>
    rw [List.foldl_cons]
    refine ih (dset acc (f x) v) ?_
    intro q hq
    rcases mem_dset hq with h1 | h1
    · exact hacc q h1
    · rw [h1]

theorem foldl_max_of_all_zero (l : Dict Nat) (acc : Nat)
    (h : ∀ q ∈ l, q.2 = 0) :
    l.foldl (fun a p => Nat.max a p.2) acc = acc := by
  induction l generalizing acc with
  | nil => rfl
  | cons p rest ih =>
    rw [List.foldl_cons, h p (List.mem_cons_self _ _)]
    have hz : Nat.max acc 0 = acc := by simp
    rw [hz]
    exact ih acc (fun q hq => h q (List.mem_cons_of_mem _ hq))

theorem foldl_max_acc_le (l : Dict Nat) (acc : Nat) :
    acc ≤ l.foldl (fun a p => Nat.max a p.2) acc := by
  induction l generalizing acc with
  | nil => exact Nat.le_refl _
  | cons p rest ih =>
    rw [List.foldl_cons]
    exact Nat.le_trans (Nat.le_max_left acc p.2) (ih (Nat.max acc p.2))

theorem mem_le_foldl_max {l : Dict Nat} {q : String × Nat} (h : q ∈ l) (acc : Nat) :
    q.2 ≤ l.foldl (fun a p => Nat.max a p.2) acc := by
  induction l generalizing acc with
  | nil => simp at h
  | cons p rest ih =>
    rw [List.foldl_cons]
    rcases List.mem_cons.mp h with h1 | h1
    · subst h1
      exact Nat.le_trans (Nat.le_max_right acc q.2) (foldl_max_acc_le rest _)
    · exact ih h1 _

theorem foldl_max_attained (l : Dict Nat) (acc : Nat) :
    l.foldl (fun a p => Nat.max a p.2) acc = acc ∨
    ∃ q ∈ l, l.foldl (fun a p => Nat.max a p.2) acc = q.2 := by
  induction l generalizing acc with
  | nil => exact Or.inl rfl
  | cons p rest ih =>
    rw [List.foldl_cons]
    rcases ih (Nat.max acc p.2) with h | ⟨q, hq, hval⟩
    · rcases Nat.le_total acc p.2 with hm | hm
      · exact Or.inr ⟨p, List.mem_cons_self _ _, h.trans (Nat.max_eq_right hm)⟩
      · exact Or.inl (h.trans (Nat.max_eq_left hm))
    · exact Or.inr ⟨q, List.mem_cons_of_mem _ hq, hval⟩

theorem dfind_map_pairfn {α β : Type} (l : Dict α) (h : String → α → β) (k : String) :
    dfind (l.map (fun p => (p.1, h p.1 p.2))) k = (dfind l k).map (h k) := by
  induction l with
  | nil => simp [dfind]
  | cons p rest ih =>
    obtain ⟨a, b⟩ := p
    by_cases hp : a = k
    · subst hp
      simp [dfind]
    · simp [dfind, hp, ih]

/-- The invariants make the two indices inverses in the lookup sense. -/
theorem wf_inverse {d : Deck} (hWf : Wf d) :
    Inverse d.term_to_definition d.definition_to_term := by
  obtain ⟨_, _, _, hfwd, hbwd, _, _⟩ := hWf
  intro t df
  constructor
  · intro h
    exact hfwd (t, df) (dfind_mem h)
  · intro h
    exact hbwd (df, t) (dfind_mem h)

/-- `remove_card` on an absent term fails at once, mutating nothing. -/
theorem remove_card_absent (d : Deck) (c : Flashcard)
    (h : dcontains d.term_to_definition c.term = false) :
    remove_card d c = (d, some DeckError.notFound) := by
  unfold remove_card delD
  rw [h]
  simp

/-- `remove_card` on the deck's own card (definition matching the
stored one) succeeds and erases the entry from all three dictionaries. -/
theorem remove_card_match (d : Deck) (c : Flashcard) (hWf : Wf d)
    (h : dfind d.term_to_definition c.term = some c.definition) :
    remove_card d c =
      (⟨derase d.term_to_definition c.term, derase d.definition_to_term c.definition,
        derase d.term_to_mistakes c.term⟩, none) := by
  obtain ⟨hk1, hk2, hk3, hfwd, hbwd, hcov, hcov'⟩ := hWf
  have hmem := dfind_mem h
  have h1 : dcontains d.term_to_definition c.term = true :=
    (dcontains_eq_true_iff _ _).mpr ⟨_, h⟩
  have h2 : dcontains d.term_to_mistakes c.term = true :=
    hcov (c.term, c.definition) hmem
  have h3 : dcontains d.definition_to_term c.definition = true :=
    (dcontains_eq_true_iff _ _).mpr ⟨_, hfwd _ hmem⟩
  unfold remove_card delD
  rw [h1, h2, h3]
  simp

/-- Erasing a matched pair from both indices keeps them inverses. -/
theorem inverse_derase {a b : Dict String} (hka : (dkeys a).Nodup)
    (hkb : (dkeys b).Nodup) (hinv : Inverse a b) {k v : String}
    (h : dfind a k = some v) :
    Inverse (derase a k) (derase b v) := by
  intro t df
  by_cases ht : t = k
  · subst ht
    rw [dfind_derase_self a t hka]
    constructor
    · intro hh
      simp at hh
    · intro hh
      by_cases hdf : df = v
      · subst hdf
        rw [dfind_derase_self b df hkb] at hh
        simp at hh
      · rw [dfind_derase_ne b v df hdf] at hh
        have hx := (hinv t df).mpr hh
        rw [h] at hx
        injection hx with hx
        exact absurd hx.symm hdf
  · rw [dfind_derase_ne a k t ht]
    by_cases hdf : df = v
    · subst hdf
      rw [dfind_derase_self b df hkb]
      constructor
      · intro hh
        have hx := (hinv t df).mp hh
        have hy := (hinv k df).mp h
        rw [hy] at hx
        injection hx with hx
        exact absurd hx.symm ht
      · intro hh
        simp at hh
    · rw [dfind_derase_ne b v df hdf]
      exact hinv t df

/-- A successful `ask` never touches the two term/definition indices. -/
theorem ask_ok_fields {d : Deck} {c : Flashcard} {answer : String}
    {out : Deck × Bool × Option String} (h : ask d c answer = Except.ok out) :
    out.1.term_to_definition = d.term_to_definition ∧
    out.1.definition_to_term = d.definition_to_term := by
  unfold ask at h
  by_cases ha : answer = c.definition
  · rw [if_pos ha] at h
    injection h with h
    rw [← h]
    exact ⟨rfl, rfl⟩
  · rw [if_neg ha] at h
    cases hm : dfind d.term_to_mistakes c.term with
    | none =>
      rw [hm] at h
      simp at h
    | some m =>
      rw [hm] at h
      injection h with h
      rw [← h]
      exact ⟨rfl, rfl⟩

theorem import_step_inverse (st : Dict Nat) (acc : Deck) (p : String × String)
    (hinv : Inverse acc.term_to_definition acc.definition_to_term) :
    Inverse (import_step st acc p).term_to_definition
      (import_step st acc p).definition_to_term := by
  unfold import_step
  cases h : insert_card acc ⟨p.1, p.2⟩ with
  | error e => exact hinv
  | ok acc' =>
    have hacc' := insert_card_inverse hinv h
    cases dfind st p.1 with
    | none => exact hacc'
    | some s => exact hacc'

theorem foldl_step_inverse (st : Dict Nat) (l : List (String × String)) (acc : Deck)
    (hinv : Inverse acc.term_to_definition acc.definition_to_term) :
    Inverse ((l.foldl (import_step st) acc)).term_to_definition
      ((l.foldl (import_step st) acc)).definition_to_term := by
  induction l generalizing acc with
  | nil => exact hinv
  | cons p rest ih =>
    rw [List.foldl_cons]
    exact ih (import_step st acc p) (import_step_inverse st acc p hinv)

theorem foldl_bind_ok (st : Dict Nat) (l : Dict String) (j : Dict (String × Nat))
    (hcov : ∀ p ∈ l, (dfind st p.1).isSome = true) :
    l.foldl
        (fun acc p => acc.bind (fun jj => (dfind st p.1).map (fun s => dset jj p.1 (p.2, s))))
        (some j)
      = some (l.foldl (fun jj p => dset jj p.1 (p.2, (dfind st p.1).getD 0)) j) := by
  induction l generalizing j with
  | nil => rfl
  | cons p rest ih =>
    rcases Option.isSome_iff_exists.mp (hcov p (List.mem_cons_self _ _)) with ⟨s, hs⟩
    rw [List.foldl_cons, List.foldl_cons, hs]
    simp only [Option.bind_some, Option.map_some, Option.getD_some]
    exact ih _ (fun q hq => hcov q (List.mem_cons_of_mem _ hq))

/-- The `get_hardest_cards` body with its `let` unfolded. -/
theorem get_hardest_cards_eq (d : Deck) :
    get_hardest_cards d =
      if maxMistakes d = 0 then ([], 0)
      else ((d.term_to_mistakes.filter (fun p => p.2 == maxMistakes d)).map Prod.fst,
            maxMistakes d) := rfl

theorem get_hardest_cards_snd (d : Deck) :
    (get_hardest_cards d).2 = maxMistakes d := by
  rw [get_hardest_cards_eq]
  by_cases h : maxMistakes d = 0
  · rw [if_pos h, h]
  · rw [if_neg h]

/-- A deck whose statistics cover its cards exports the snapshot
`{term: (definition, stats)}` together with its size. -/
theorem export_deck_eq (d : Deck) (hk : (dkeys d.term_to_definition).Nodup)
    (hcov : ∀ p ∈ d.term_to_definition, (dfind d.term_to_mistakes p.1).isSome = true) :
    export_deck d = some
      (d.term_to_definition.map
         (fun p => (p.1, (p.2, (dfind d.term_to_mistakes p.1).getD 0))),
       d.term_to_definition.length) := by
  unfold export_deck
  rw [foldl_bind_ok d.term_to_mistakes d.term_to_definition [] hcov]
  have h := foldl_dset_fresh d.term_to_definition Prod.fst
    (fun p => (p.2, (dfind d.term_to_mistakes p.1).getD 0)) []
    (fun x _ => by simp [dcontains, dfind]) hk
  have h2 : (d.term_to_definition.foldl
        (fun jj p => dset jj p.1 (p.2, (dfind d.term_to_mistakes p.1).getD 0)) [])
      = d.term_to_definition.map
          (fun p => (p.1, (p.2, (dfind d.term_to_mistakes p.1).getD 0))) :=
    h.trans (List.nil_append _)
  rw [h2]
  rfl

/-- With pairwise-distinct imported terms and definitions, the two
indices rebuilt by `import_deck` are exact inverses. -/
theorem import_base_inverse (data : Dict (String × Nat))
    (hnd : (data.map Prod.fst).Nodup)
    (hvd : (data.map (fun p => p.2.1)).Nodup) :
    Inverse (import_base data).term_to_definition
      (import_base data).definition_to_term := by
  have hkt : (dkeys (imp_t2d data)).Nodup := by
    rw [imp_t2d_eq_map data hnd]
    show ((data.map (fun p => (p.1, p.2.1))).map Prod.fst).Nodup
    rw [List.map_map]
    exact hnd
  have hvt : ((imp_t2d data).map Prod.snd).Nodup := by
    rw [imp_t2d_eq_map data hnd, List.map_map]
    exact hvd
  have hswap : imp_d2t data = (imp_t2d data).map (fun p => (p.2, p.1)) := by
    unfold imp_d2t
    have h := foldl_dset_fresh (imp_t2d data) Prod.snd Prod.fst []
      (fun x _ => by simp [dcontains, dfind]) hvt
    simpa using h
  show Inverse (imp_t2d data) (imp_d2t data)
  rw [hswap]
  exact inverse_map_swap (imp_t2d data) hkt hvt

/-! ### The claims -/

/-- C5: `insert_card` fails with `DuplicateKey` whenever the card's
term already exists as a term or its definition already exists as a
definition — either collision alone blocks insertion, and the failing
check precedes every write, so the deck is unchanged on failure — and
when neither collides the card is added with mistake count 0. -/
theorem claim_C5_insert_duplicate (d : Deck) (c : Flashcard) :
    (dcontains d.term_to_definition c.term = true →
       insert_card d c = Except.error DeckError.duplicateKey) ∧
    (dcontains d.definition_to_term c.definition = true →
       insert_card d c = Except.error DeckError.duplicateKey) ∧
    ((dcontains d.term_to_definition c.term
        || dcontains d.definition_to_term c.definition) = false →
       ∃ d', insert_card d c = Except.ok d' ∧
         dfind d'.term_to_definition c.term = some c.definition ∧
         dfind d'.definition_to_term c.definition = some c.term ∧
         dfind d'.term_to_mistakes c.term = some 0) := by
  refine ⟨?_, ?_, ?_⟩
  · intro h
    unfold insert_card
    rw [h]
    simp
  · intro h
    unfold insert_card
    rw [h]
    simp
  · intro h
    exact ⟨_, insert_card_eq_ok h, dfind_dset_self _ _ _, dfind_dset_self _ _ _,
      dfind_dset_self _ _ _⟩

/-- Witness for C5 at concrete inputs: inserting `(A, 9)` into
`{A: 1, B: 2}` collides on the term, inserting `(C, 2)` collides on
the definition, and inserting `(C, 3)` succeeds with 0 mistakes. -/
theorem claim_C5_witness :
    (dcontains exDeck.term_to_definition "A" = true ∧
       insert_card exDeck ⟨"A", "9"⟩ = Except.error DeckError.duplicateKey) ∧
    (dcontains exDeck.definition_to_term "2" = true ∧
       insert_card exDeck ⟨"C", "2"⟩ = Except.error DeckError.duplicateKey) ∧
    ((dcontains exDeck.term_to_definition "C"
        || dcontains exDeck.definition_to_term "3") = false ∧
     ∃ d', insert_card exDeck ⟨"C", "3"⟩ = Except.ok d' ∧
       dfind d'.term_to_definition "C" = some "3" ∧
       dfind d'.definition_to_term "3" = some "C" ∧
       dfind d'.term_to_mistakes "C" = some 0) :=
  ⟨⟨by decide, (claim_C5_insert_duplicate exDeck ⟨"A", "9"⟩).1 (by decide)⟩,
   ⟨by decide, (claim_C5_insert_duplicate exDeck ⟨"C", "2"⟩).2.1 (by decide)⟩,
   ⟨by decide, (claim_C5_insert_duplicate exDeck ⟨"C", "3"⟩).2.2 (by decide)⟩⟩

/-- C6: removing a card whose term is not a key of
`term_to_definition` fails with `NotFound` and leaves the deck (all
three dictionaries) exactly as it was. -/
theorem claim_C6_remove_absent (d : Deck) (c : Flashcard)
    (h : dcontains d.term_to_definition c.term = false) :
    remove_card d c = (d, some DeckError.notFound) :=
  remove_card_absent d c h

/-- Witness for C6: removing the absent term `Z` from `{A: 1, B: 2}`. -/
theorem claim_C6_witness :
    dcontains exDeck.term_to_definition "Z" = false ∧
    remove_card exDeck ⟨"Z", "9"⟩ = (exDeck, some DeckError.notFound) :=
  ⟨by decide, claim_C6_remove_absent exDeck ⟨"Z", "9"⟩ (by decide)⟩

/-- C4: for a card whose term is in the deck, `ask` with the exact
definition answers `(true, answer)` and changes nothing; any other
answer increments that term's mistake count by exactly 1 and returns
`(false, hint)` where the hint is the term whose definition equals the
answer when one exists and absent otherwise, comparison being exact
string equality. -/
theorem claim_C4_ask (d : Deck) (c : Flashcard) (answer t : String)
    (hWf : Wf d) (hterm : dcontains d.term_to_definition c.term = true) :
    (answer = c.definition → ask d c answer = Except.ok (d, true, some answer)) ∧
    (answer ≠ c.definition → ∃ m, dfind d.term_to_mistakes c.term = some m ∧
       ask d c answer = Except.ok
         ({ d with term_to_mistakes := dset d.term_to_mistakes c.term (m + 1) },
          false, dfind d.definition_to_term answer) ∧
       dfind (dset d.term_to_mistakes c.term (m + 1)) c.term = some (m + 1) ∧
       (dfind d.definition_to_term answer = some t ↔
          dfind d.term_to_definition t = some answer)) := by
  obtain ⟨hk1, hk2, hk3, hfwd, hbwd, hcov, hcov'⟩ := hWf
  constructor
  · intro h
    unfold ask
    rw [if_pos h]
  · intro h
    rcases (dcontains_eq_true_iff _ _).mp hterm with ⟨df, hdf⟩
    rcases Option.isSome_iff_exists.mp (hcov (c.term, df) (dfind_mem hdf)) with ⟨m, hm⟩
    refine ⟨m, hm, ?_, dfind_dset_self _ _ _, ?_⟩
    · unfold ask
      rw [if_neg h, hm]
    · constructor
      · intro hh
        exact hbwd (answer, t) (dfind_mem hh)
      · intro hh
        exact hfwd (t, answer) (dfind_mem hh)

/-- Witness for C4 on the spec's scenario deck `{France: Paris}`:
answering `Paris` is correct and mutates nothing, answering `Berlin`
adds one mistake and yields no hint. -/
theorem claim_C4_witness :
    Wf frDeck ∧ dcontains frDeck.term_to_definition "France" = true ∧
    ask frDeck ⟨"France", "Paris"⟩ "Paris" = Except.ok (frDeck, true, some "Paris") ∧
    (∃ m, dfind frDeck.term_to_mistakes "France" = some m ∧
       ask frDeck ⟨"France", "Paris"⟩ "Berlin" = Except.ok
         ({ frDeck with term_to_mistakes := dset frDeck.term_to_mistakes "France" (m + 1) },
          false, dfind frDeck.definition_to_term "Berlin") ∧
       dfind (dset frDeck.term_to_mistakes "France" (m + 1)) "France" = some (m + 1) ∧
       (dfind frDeck.definition_to_term "Berlin" = some "France" ↔
          dfind frDeck.term_to_definition "France" = some "Berlin")) :=
  ⟨by decide, by decide,
   (claim_C4_ask frDeck ⟨"France", "Paris"⟩ "Paris" "France" (by decide) (by decide)).1 rfl,
   (claim_C4_ask frDeck ⟨"France", "Paris"⟩ "Berlin" "France" (by decide) (by decide)).2
     (by decide)⟩

/-- C10 (implicit): for a card whose term is in the deck, `ask`
mutates at most the one mistake-count entry of that term — the two
term/definition indices and every other term's count are unchanged —
and with the exact definition as answer the entire deck is unchanged. -/
theorem claim_C10_ask_frame (d : Deck) (c : Flashcard) (answer t' : String)
    (hWf : Wf d) (hterm : dcontains d.term_to_definition c.term = true) :
    (answer = c.definition → ask d c answer = Except.ok (d, true, some answer)) ∧
    (answer ≠ c.definition → ∃ d' r, ask d c answer = Except.ok (d', false, r) ∧
       d'.term_to_definition = d.term_to_definition ∧
       d'.definition_to_term = d.definition_to_term ∧
       (t' ≠ c.term → dfind d'.term_to_mistakes t' = dfind d.term_to_mistakes t')) := by
  obtain ⟨hk1, hk2, hk3, hfwd, hbwd, hcov, hcov'⟩ := hWf
  constructor
  · intro h
    unfold ask
    rw [if_pos h]
  · intro h
    rcases (dcontains_eq_true_iff _ _).mp hterm with ⟨df, hdf⟩
    rcases Option.isSome_iff_exists.mp (hcov (c.term, df) (dfind_mem hdf)) with ⟨m, hm⟩
    refine ⟨{ d with term_to_mistakes := dset d.term_to_mistakes c.term (m + 1) },
      dfind d.definition_to_term answer, ?_, rfl, rfl, ?_⟩
    · unfold ask
      rw [if_neg h, hm]
    · intro ht'
      exact dfind_dset_ne _ _ _ _ ht'

/-- Witness for C10: on `{A: 1, B: 2}`, a correct answer for `A`
leaves the deck untouched and a wrong one leaves `B`'s data alone. -/
theorem claim_C10_witness :
    Wf exDeck ∧ dcontains exDeck.term_to_definition "A" = true ∧
    ask exDeck ⟨"A", "1"⟩ "1" = Except.ok (exDeck, true, some "1") ∧
    (∃ d' r, ask exDeck ⟨"A", "1"⟩ "9" = Except.ok (d', false, r) ∧
       d'.term_to_definition = exDeck.term_to_definition ∧
       d'.definition_to_term = exDeck.definition_to_term ∧
       ("B" ≠ "A" → dfind d'.term_to_mistakes "B" = dfind exDeck.term_to_mistakes "B")) :=
  ⟨by decide, by decide,
   (claim_C10_ask_frame exDeck ⟨"A", "1"⟩ "1" "B" (by decide) (by decide)).1 rfl,
   (claim_C10_ask_frame exDeck ⟨"A", "1"⟩ "9" "B" (by decide) (by decide)).2 (by decide)⟩

/-- C9: `reset_stats` sets every term's mistake count to 0 while
leaving the two term/definition indices untouched, after which
`get_hardest_cards` returns `([], 0)`. -/
theorem claim_C9_reset_stats (d : Deck) (t : String) :
    (reset_stats d).term_to_definition = d.term_to_definition ∧
    (reset_stats d).definition_to_term = d.definition_to_term ∧
    dfind (reset_stats d).term_to_mistakes t
      = (if dcontains d.term_to_definition t then some 0 else none) ∧
    get_hardest_cards (reset_stats d) = ([], 0) := by
  refine ⟨rfl, rfl, ?_, ?_⟩
  · have h := dfind_foldl_dset_const d.term_to_definition Prod.fst (0 : Nat) [] t
    rw [dcontains_eq_any]
    simpa [reset_stats, dfind] using h
  · have hz : maxMistakes (reset_stats d) = 0 :=
      foldl_max_of_all_zero _ 0
        (foldl_dset_const_vals d.term_to_definition Prod.fst 0 [] (by simp))
    rw [get_hardest_cards_eq, hz]
    simp

/-- C7: `get_hardest_cards` returns the maximum mistake count as its
second component; every recorded count is bounded by it; when it is
non-zero it is attained and the returned terms are exactly those whose
count equals it; when it is 0 — in particular on an empty deck — the
result is `([], 0)`. -/
theorem claim_C7_hardest (d : Deck) (t : String) (m : Nat)
    (hnd : (dkeys d.term_to_mistakes).Nodup) :
    (get_hardest_cards d).2 = maxMistakes d ∧
    (dfind d.term_to_mistakes t = some m → m ≤ (get_hardest_cards d).2) ∧
    ((get_hardest_cards d).2 ≠ 0 →
       ∃ t0, dfind d.term_to_mistakes t0 = some (get_hardest_cards d).2) ∧
    (maxMistakes d = 0 → get_hardest_cards d = ([], 0)) ∧
    (d.term_to_mistakes = [] → get_hardest_cards d = ([], 0)) ∧
    ((get_hardest_cards d).2 ≠ 0 →
       (t ∈ (get_hardest_cards d).1 ↔
          dfind d.term_to_mistakes t = some (get_hardest_cards d).2)) := by
  refine ⟨get_hardest_cards_snd d, ?_, ?_, ?_, ?_, ?_⟩
  · intro h
    rw [get_hardest_cards_snd]
    exact mem_le_foldl_max (dfind_mem h) 0
  · intro h
    rw [get_hardest_cards_snd] at h ⊢
    rcases foldl_max_attained d.term_to_mistakes 0 with h0 | ⟨q, hq, hval⟩
    · exact absurd h0 h
    · have hval' : maxMistakes d = q.2 := hval
      refine ⟨q.1, ?_⟩
      rw [hval']
      exact mem_dfind hnd hq
  · intro h
    rw [get_hardest_cards_eq, if_pos h]
  · intro h
    have hz : maxMistakes d = 0 := by
      simp [maxMistakes, h]
    rw [get_hardest_cards_eq, if_pos hz]
  · intro h
    rw [get_hardest_cards_snd] at h
    rw [get_hardest_cards_eq, if_neg h]
    show t ∈ (d.term_to_mistakes.filter (fun p => p.2 == maxMistakes d)).map Prod.fst ↔
      dfind d.term_to_mistakes t = some (maxMistakes d)
    constructor
    · intro ht
      rcases List.mem_map.mp ht with ⟨q, hq, hq1⟩
      have hqf := List.mem_filter.mp hq
      have hqv : q.2 = maxMistakes d := by simpa using hqf.2
      have hfind := mem_dfind hnd hqf.1
      rw [hq1, hqv] at hfind
      exact hfind
    · intro hf
      exact List.mem_map.mpr
        ⟨(t, maxMistakes d), List.mem_filter.mpr ⟨dfind_mem hf, by simp⟩, rfl⟩

/-- Witness for C7 on `{A: 1, B: 2}` with counts `A ↦ 2`, `B ↦ 1`:
the maximum 2 bounds every count, is attained, and `A` is returned. -/
theorem claim_C7_witness :
    (dkeys hardDeck.term_to_mistakes).Nodup ∧
    (get_hardest_cards hardDeck).2 = maxMistakes hardDeck ∧
    (dfind hardDeck.term_to_mistakes "A" = some 2 →
       2 ≤ (get_hardest_cards hardDeck).2) ∧
    ((get_hardest_cards hardDeck).2 ≠ 0 →
       ∃ t0, dfind hardDeck.term_to_mistakes t0 = some (get_hardest_cards hardDeck).2) ∧
    ((get_hardest_cards hardDeck).2 ≠ 0 →
       ("A" ∈ (get_hardest_cards hardDeck).1 ↔
          dfind hardDeck.term_to_mistakes "A" = some (get_hardest_cards hardDeck).2)) :=
  ⟨by decide, (claim_C7_hardest hardDeck "A" 2 (by decide)).1,
   (claim_C7_hardest hardDeck "A" 2 (by decide)).2.1,
   (claim_C7_hardest hardDeck "A" 2 (by decide)).2.2.1,
   (claim_C7_hardest hardDeck "A" 2 (by decide)).2.2.2.2.2⟩

/-- C3: `import_deck` replaces the deck's state wholesale with the
imported data (every imported term ends with the imported definition
and mistake count), re-inserts every pre-existing card whose term and
definition both avoid the imported data with its original mistake
count restored, silently drops every pre-existing card whose term or
definition collides with the imported data, and returns the number of
entries of the imported data. -/
theorem claim_C3_import_merge (d : Deck) (data : Dict (String × Nat))
    (t df : String) (v : String × Nat)
    (hWf : Wf d) (hnd : (data.map Prod.fst).Nodup) :
    (import_deck d data).2 = data.length ∧
    (dfind data t = some v →
       dfind (import_deck d data).1.term_to_definition t = some v.1 ∧
       dfind (import_deck d data).1.term_to_mistakes t = some v.2) ∧
    (dfind data t = none → dfind d.term_to_definition t = some df →
       data.any (fun p => p.2.1 == df) = false →
       dfind (import_deck d data).1.term_to_definition t = some df ∧
       dfind (import_deck d data).1.term_to_mistakes t = dfind d.term_to_mistakes t) ∧
    (dfind data t = none → dfind d.term_to_definition t = some df →
       data.any (fun p => p.2.1 == df) = true →
       dfind (import_deck d data).1.term_to_definition t = none ∧
       dfind (import_deck d data).1.term_to_mistakes t = none) ∧
    (dfind data t = none → dfind d.term_to_definition t = none →
       dfind (import_deck d data).1.term_to_definition t = none ∧
       dfind (import_deck d data).1.term_to_mistakes t = none) := by
  obtain ⟨hk1, hk2, hk3, hfwd, hbwd, hcov, hcov'⟩ := hWf
  have hbt : dfind (import_base data).term_to_definition t
      = (dfind data t).map Prod.fst := imp_t2d_find data hnd t
  have hbm : dfind (import_base data).term_to_mistakes t
      = (dfind data t).map Prod.snd := imp_mist_find data hnd t
  refine ⟨rfl, ?_, ?_, ?_, ?_⟩
  · intro hv
    have hc : dcontains (import_base data).term_to_definition t = true :=
      (dcontains_eq_true_iff _ _).mpr ⟨v.1, by rw [hbt, hv]; rfl⟩
    have hfold := foldl_step_contains d.term_to_mistakes d.term_to_definition
      (import_base data) t hc
    constructor
    · exact hfold.1.trans (by rw [hbt, hv]; rfl)
    · exact hfold.2.trans (by rw [hbm, hv]; rfl)
  · intro hn hold hanyf
    have hmem : (t, df) ∈ d.term_to_definition := dfind_mem hold
    have hvnd : (d.term_to_definition.map Prod.snd).Nodup := vals_nodup hk1 hfwd
    have hc1 : dcontains (import_base data).term_to_definition t = false :=
      (dcontains_eq_false_iff _ _).mpr (by rw [hbt, hn]; rfl)
    have hc2 : dcontains (import_base data).definition_to_term df = false :=
      (imp_d2t_contains data hnd df).trans hanyf
    have hcolf : (dcontains (import_base data).term_to_definition t
        || dcontains (import_base data).definition_to_term df) = false := by
      rw [hc1, hc2]
      rfl
    have hfold := (foldl_step_mem d.term_to_mistakes d.term_to_definition
      (import_base data) t df hmem hk1 hvnd).2 hcolf
    refine ⟨hfold.1, ?_⟩
    rcases Option.isSome_iff_exists.mp (hcov (t, df) hmem) with ⟨s, hs⟩
    have hs' : dfind d.term_to_mistakes t = some s := hs
    exact hfold.2.trans (by rw [hs']; rfl)
  · intro hn hold hanyt
    have hmem : (t, df) ∈ d.term_to_definition := dfind_mem hold
    have hvnd : (d.term_to_definition.map Prod.snd).Nodup := vals_nodup hk1 hfwd
    have hc2 : dcontains (import_base data).definition_to_term df = true :=
      (imp_d2t_contains data hnd df).trans hanyt
    have hcolt : (dcontains (import_base data).term_to_definition t
        || dcontains (import_base data).definition_to_term df) = true := by
      rw [hc2]
      simp
    have hfold := (foldl_step_mem d.term_to_mistakes d.term_to_definition
      (import_base data) t df hmem hk1 hvnd).1 hcolt
    constructor
    · exact hfold.1.trans (by rw [hbt, hn]; rfl)
    · exact hfold.2.trans (by rw [hbm, hn]; rfl)
  · intro hn hold
    have habs : t ∉ List.map Prod.fst d.term_to_definition := by
      intro hk
      have hc := (dcontains_iff_mem_keys d.term_to_definition t).mpr hk
      rw [(dcontains_eq_false_iff _ _).mpr hold] at hc
      cases hc
    have hfold := foldl_step_absent d.term_to_mistakes d.term_to_definition
      (import_base data) t habs
    constructor
    · exact hfold.1.trans (by rw [hbt, hn]; rfl)
    · exact hfold.2.trans (by rw [hbm, hn]; rfl)

/-- Witness for C3 on the spec's scenario: `{A: 1, B: 2}` importing
`{A: (9, 3), C: (3, 0)}` yields `A ↦ 9` with 3 mistakes, `C ↦ 3` with
0 mistakes, `B ↦ 2` with its old mistake count, and returns 2. -/
theorem claim_C3_witness :
    Wf exDeck ∧ (exData.map Prod.fst).Nodup ∧
    (import_deck exDeck exData).2 = 2 ∧
    (dfind (import_deck exDeck exData).1.term_to_definition "A" = some "9" ∧
       dfind (import_deck exDeck exData).1.term_to_mistakes "A" = some 3) ∧
    (dfind (import_deck exDeck exData).1.term_to_definition "C" = some "3" ∧
       dfind (import_deck exDeck exData).1.term_to_mistakes "C" = some 0) ∧
    (dfind (import_deck exDeck exData).1.term_to_definition "B" = some "2" ∧
       dfind (import_deck exDeck exData).1.term_to_mistakes "B"
         = dfind exDeck.term_to_mistakes "B") :=
  ⟨by decide, by decide,
   (claim_C3_import_merge exDeck exData "A" "1" ("9", 3) (by decide) (by decide)).1,
   (claim_C3_import_merge exDeck exData "A" "1" ("9", 3) (by decide) (by decide)).2.1
     (by decide),
   (claim_C3_import_merge exDeck exData "C" "1" ("3", 0) (by decide) (by decide)).2.1
     (by decide),
   (claim_C3_import_merge exDeck exData "B" "2" ("9", 3) (by decide) (by decide)).2.2.1
     (by decide) (by decide) (by decide)⟩

/-- C8: exporting a deck satisfying the invariants and importing the
snapshot into a fresh empty deck reproduces the identical
(term, definition, mistake count) triples. -/
theorem claim_C8_roundtrip (d : Deck) (t : String) (hWf : Wf d) :
    ∃ data : Dict (String × Nat),
      export_deck d = some (data, d.term_to_definition.length) ∧
      (import_deck emptyDeck data).1.term_to_definition = d.term_to_definition ∧
      dfind (import_deck emptyDeck data).1.term_to_mistakes t
        = dfind d.term_to_mistakes t := by
  obtain ⟨hk1, hk2, hk3, hfwd, hbwd, hcov, hcov'⟩ := hWf
  have hndd : ((d.term_to_definition.map
      (fun p => (p.1, (p.2, (dfind d.term_to_mistakes p.1).getD 0)))).map Prod.fst).Nodup := by
    simpa [List.map_map, Function.comp, dkeys] using hk1
  refine ⟨d.term_to_definition.map
    (fun p => (p.1, (p.2, (dfind d.term_to_mistakes p.1).getD 0))),
    export_deck_eq d hk1 hcov, ?_, ?_⟩
  · show imp_t2d (d.term_to_definition.map
      (fun p => (p.1, (p.2, (dfind d.term_to_mistakes p.1).getD 0))))
      = d.term_to_definition
    rw [imp_t2d_eq_map _ hndd, List.map_map]
    exact List.map_id _
  · have hdf : dfind (d.term_to_definition.map
        (fun p => (p.1, (p.2, (dfind d.term_to_mistakes p.1).getD 0)))) t
        = (dfind d.term_to_definition t).map
            (fun a => (a, (dfind d.term_to_mistakes t).getD 0)) :=
      dfind_map_pairfn d.term_to_definition
        (fun k a => (a, (dfind d.term_to_mistakes k).getD 0)) t
    show dfind (imp_mist (d.term_to_definition.map
        (fun p => (p.1, (p.2, (dfind d.term_to_mistakes p.1).getD 0))))) t
      = dfind d.term_to_mistakes t
    rw [imp_mist_find _ hndd t, hdf]
    cases hx : dfind d.term_to_definition t with
    | none =>
      show (none : Option Nat) = dfind d.term_to_mistakes t
      cases hm : dfind d.term_to_mistakes t with
      | none => rfl
      | some m =>
        have hcontra : (dfind d.term_to_definition t).isSome = true :=
          hcov' (t, m) (dfind_mem hm)
        rw [hx] at hcontra
        simp at hcontra
    | some df =>
      rcases Option.isSome_iff_exists.mp (hcov (t, df) (dfind_mem hx)) with ⟨s, hs⟩
      have hs' : dfind d.term_to_mistakes t = some s := hs
      rw [hs']
      rfl

/-- Witness for C8: the deck `{A: 1, B: 2}` round-trips through
export and import into a fresh deck. -/
theorem claim_C8_witness :
    Wf exDeck ∧
    ∃ data, export_deck exDeck = some (data, exDeck.term_to_definition.length) ∧
      (import_deck emptyDeck data).1.term_to_definition = exDeck.term_to_definition ∧
      dfind (import_deck emptyDeck data).1.term_to_mistakes "A"
        = dfind exDeck.term_to_mistakes "A" :=
  ⟨by decide, claim_C8_roundtrip exDeck "A" (by decide)⟩

/-- C1, as stated, is violated by the code: from the reachable deck
`{A: 1, B: 2}` (built by two inserts from the empty deck),
`remove_card` given the mismatched card `(A, 2)` completes without
error yet afterwards `B ↦ 2` has no inverse entry; and importing data
with a duplicated definition leaves `A ↦ 1` while the inverse entry
for `1` points at `B`. -/
theorem claim_C1_counterexample :
    insert_card emptyDeck ⟨"A", "1"⟩ = Except.ok exDeck1 ∧
    insert_card exDeck1 ⟨"B", "2"⟩ = Except.ok exDeck ∧
    (remove_card exDeck ⟨"A", "2"⟩).2 = none ∧
    dfind (remove_card exDeck ⟨"A", "2"⟩).1.term_to_definition "B" = some "2" ∧
    dfind (remove_card exDeck ⟨"A", "2"⟩).1.definition_to_term "2" = none ∧
    dfind (import_deck emptyDeck
        [("A", ("1", 0)), ("B", ("1", 0))]).1.term_to_definition "A" = some "1" ∧
    dfind (import_deck emptyDeck
        [("A", ("1", 0)), ("B", ("1", 0))]).1.definition_to_term "1" = some "B" :=
  ⟨rfl, rfl, rfl, rfl, rfl, rfl, rfl⟩

/-- C1 (amended): for every deck satisfying the invariants, the two
indices remain exact inverses after every operation, provided
`remove_card` receives a card whose definition is the deck's stored
definition for its term, and `import_deck` receives data whose terms
and whose definitions are each pairwise distinct; `insert_card`, `ask`
and `reset_stats` need no proviso, and `export_deck` mutates nothing
by construction. -/
theorem claim_C1_inverse_invariant (d : Deck) (hWf : Wf d) :
    (∀ c d', insert_card d c = Except.ok d' →
       Inverse d'.term_to_definition d'.definition_to_term) ∧
    (∀ c : Flashcard, dfind d.term_to_definition c.term = some c.definition →
       Inverse (remove_card d c).1.term_to_definition
         (remove_card d c).1.definition_to_term) ∧
    (∀ data : Dict (String × Nat), (data.map Prod.fst).Nodup →
       (data.map (fun p => p.2.1)).Nodup →
       Inverse (import_deck d data).1.term_to_definition
         (import_deck d data).1.definition_to_term) ∧
    (∀ c answer out, ask d c answer = Except.ok out →
       Inverse out.1.term_to_definition out.1.definition_to_term) ∧
    Inverse (reset_stats d).term_to_definition
      (reset_stats d).definition_to_term := by
  have hinv := wf_inverse hWf
  obtain ⟨hk1, hk2, hk3, hfwd, hbwd, hcov, hcov'⟩ := hWf
  refine ⟨?_, ?_, ?_, ?_, hinv⟩
  · intro c d' h
    exact insert_card_inverse hinv h
  · intro c h
    rw [remove_card_match d c ⟨hk1, hk2, hk3, hfwd, hbwd, hcov, hcov'⟩ h]
    exact inverse_derase hk1 hk2 hinv h
  · intro data hnd hvd
    exact foldl_step_inverse d.term_to_mistakes d.term_to_definition
      (import_base data) (import_base_inverse data hnd hvd)
  · intro c answer out h
    obtain ⟨h1, h2⟩ := ask_ok_fields h
    rw [h1, h2]
    exact hinv

/-- Witness for the amended C1 on `{A: 1, B: 2}`: the indices are
inverses after `reset_stats` and after removing the matching card
`(A, 1)`. -/
theorem claim_C1_witness :
    Wf exDeck ∧
    Inverse (reset_stats exDeck).term_to_definition
      (reset_stats exDeck).definition_to_term ∧
    Inverse (remove_card exDeck ⟨"A", "1"⟩).1.term_to_definition
      (remove_card exDeck ⟨"A", "1"⟩).1.definition_to_term :=
  ⟨by decide, (claim_C1_inverse_invariant exDeck (by decide)).2.2.2.2,
   (claim_C1_inverse_invariant exDeck (by decide)).2.1 ⟨"A", "1"⟩ (by decide)⟩

/-- C2, as stated, is violated by the code: on the invariant-holding
deck `{A: 1}`, `remove_card` with the mismatched card `(A, 2)` raises
`KeyError` after it has already deleted the entries of
`term_to_definition` and `term_to_mistakes`, while `definition_to_term`
still holds its entry — a failure escaping with a partial mutation,
neither all three deletions nor none. -/
theorem claim_C2_counterexample :
    Wf exDeck1 ∧
    (remove_card exDeck1 ⟨"A", "2"⟩).2 = some DeckError.notFound ∧
    (remove_card exDeck1 ⟨"A", "2"⟩).1.term_to_definition = [] ∧
    (remove_card exDeck1 ⟨"A", "2"⟩).1.term_to_mistakes = [] ∧
    (remove_card exDeck1 ⟨"A", "2"⟩).1.definition_to_term = [("1", "A")] ∧
    (remove_card exDeck1 ⟨"A", "2"⟩).1 ≠ exDeck1 :=
  ⟨by decide, rfl, rfl, rfl, rfl, by decide⟩

/-- C2 (amended): on a deck satisfying the invariants, `remove_card`
with an absent term fails with `NotFound` leaving the deck entirely
unchanged, and `remove_card` with the deck's own card (matching
definition) succeeds, deleting the card from all three mappings;
`insert_card` and `ask` check before mutating, so their failures also
leave the deck unchanged by construction; a failed `remove_card` can
escape a partial mutation only when the given card's definition
differs from the deck's stored one. -/
theorem claim_C2_failure_atomic (d : Deck) (c : Flashcard) (hWf : Wf d) :
    (dcontains d.term_to_definition c.term = false →
       remove_card d c = (d, some DeckError.notFound)) ∧
    (dfind d.term_to_definition c.term = some c.definition →
       (remove_card d c).2 = none ∧
       dfind (remove_card d c).1.term_to_definition c.term = none ∧
       dfind (remove_card d c).1.term_to_mistakes c.term = none ∧
       dfind (remove_card d c).1.definition_to_term c.definition = none ∧
       (remove_card d c).1 =
         ⟨derase d.term_to_definition c.term, derase d.definition_to_term c.definition,
          derase d.term_to_mistakes c.term⟩) := by
  obtain ⟨hk1, hk2, hk3, hfwd, hbwd, hcov, hcov'⟩ := hWf
  constructor
  · exact remove_card_absent d c
  · intro h
    rw [remove_card_match d c ⟨hk1, hk2, hk3, hfwd, hbwd, hcov, hcov'⟩ h]
    refine ⟨rfl, ?_, ?_, ?_, rfl⟩
    · exact dfind_derase_self _ _ hk1
    · exact dfind_derase_self _ _ hk3
    · exact dfind_derase_self _ _ hk2

/-- Witness for the amended C2 on `{A: 1}`: removing the matching card
`(A, 1)` succeeds and clears all three mappings. -/
theorem claim_C2_witness :
    Wf exDeck1 ∧ dfind exDeck1.term_to_definition "A" = some "1" ∧
    ((remove_card exDeck1 ⟨"A", "1"⟩).2 = none ∧
     dfind (remove_card exDeck1 ⟨"A", "1"⟩).1.term_to_definition "A" = none ∧
     dfind (remove_card exDeck1 ⟨"A", "1"⟩).1.term_to_mistakes "A" = none ∧
     dfind (remove_card exDeck1 ⟨"A", "1"⟩).1.definition_to_term "1" = none ∧
     (remove_card exDeck1 ⟨"A", "1"⟩).1 =
       ⟨derase exDeck1.term_to_definition "A", derase exDeck1.definition_to_term "1",
        derase exDeck1.term_to_mistakes "A"⟩) :=
  ⟨by decide, by decide,
   (claim_C2_failure_atomic exDeck1 ⟨"A", "1"⟩ (by decide)).2 (by decide)⟩

end Flashcards
